/-
Verification of the caption-translator pipeline (src/index.js, src/checkpoint.js,
src/progress.js): a shallow embedding of the deduplicated, checkpointed batch
translation pipeline, with theorems about work-set construction, batch grouping,
the retry engine, checkpoint persistence, result materialization and stall
detection.

Modelling conventions:
  * JS `Map` objects and row records are association lists `List (String × String)`
    with first-occurrence key order; `Map.set` updates in place (`mapSet`),
    `Map.get` / property access is `mapGet`.
  * JS truthiness on cell values: a missing property (`none`) and the empty
    string are falsy; every other string is truthy.
  * Timestamps are milliseconds as `Nat`; JS float arithmetic in the progress
    monitor is modelled exactly over `ℚ` (all quantities involved are exact
    decimals, so `ℚ` coincides with the float-free mathematical reading).
  * The remote translation service and the random source are oracle parameters.
-/
import Mathlib

/-! ## Association-list model of JS `Map` / row records -/

/-- JS property read / `Map.get`: first binding of the key, if any. -/
def mapGet (m : List (String × String)) (k : String) : Option String :=
  match m with
  | [] => none
  | (k', v') :: rest => if k' = k then some v' else mapGet rest k

/-- JS `Map.set` / property write: replace the value at the first occurrence of
the key, keeping insertion order; append a new binding if the key is absent. -/
def mapSet (m : List (String × String)) (k v : String) : List (String × String) :=
  match m with
  | [] => [(k, v)]
  | (k', v') :: rest => if k' = k then (k, v) :: rest else (k', v') :: mapSet rest k v

/-- Keys of an association list, in order. -/
def mapKeys (m : List (String × String)) : List String :=
  m.map Prod.fst

/-- JS truthiness of a cell value: `undefined` and `""` are falsy. -/
def truthy : Option String → Bool
  | none => false
  | some s => !s.isEmpty

theorem mapKeys_mapSet (m : List (String × String)) (k v : String) :
    mapKeys (mapSet m k v) = if k ∈ mapKeys m then mapKeys m else mapKeys m ++ [k] := by
  induction m with
  | nil => simp [mapSet, mapKeys]
  | cons hd tl ih =>
    obtain ⟨k', v'⟩ := hd
    by_cases hk : k' = k
    · subst hk
      simp [mapSet, mapKeys]
    · simp only [mapSet, if_neg hk, mapKeys, List.map_cons, List.mem_cons]
      simp only [mapKeys] at ih
      rw [ih]
      by_cases hmem : k ∈ tl.map Prod.fst
      · simp [hmem, Ne.symm hk]
      · simp [hmem, Ne.symm hk]

theorem mapKeys_mapSet_nodup (m : List (String × String)) (k v : String)
    (h : (mapKeys m).Nodup) : (mapKeys (mapSet m k v)).Nodup := by
  rw [mapKeys_mapSet]
  by_cases hmem : k ∈ mapKeys m
  · simpa [hmem]
  · simp only [hmem, if_false]
    rw [List.nodup_append]
    refine ⟨h, List.nodup_singleton k, fun a ha hak => ?_⟩
    rw [List.mem_singleton] at hak
    exact hmem (hak ▸ ha)

theorem mapGet_mapSet_self (m : List (String × String)) (k v : String) :
    mapGet (mapSet m k v) k = some v := by
  induction m with
  | nil => simp [mapSet, mapGet]
  | cons hd tl ih =>
    obtain ⟨k', v'⟩ := hd
    by_cases hk : k' = k
    · subst hk; simp [mapSet, mapGet]
    · simp [mapSet, mapGet, hk, ih]

theorem mapGet_mapSet_other (m : List (String × String)) (k v k' : String) (h : k' ≠ k) :
    mapGet (mapSet m k v) k' = mapGet m k' := by
  induction m with
  | nil => simp [mapSet, mapGet, Ne.symm h]
  | cons hd tl ih =>
    obtain ⟨k₀, v₀⟩ := hd
    by_cases hk : k₀ = k
    · subst hk; simp [mapSet, mapGet, Ne.symm h, h]
    · simp only [mapSet, if_neg hk, mapGet]
      by_cases hk' : k₀ = k'
      · simp [hk']
      · simp [hk', ih]

theorem mapGet_isSome_iff_mem (m : List (String × String)) (k : String) :
    (mapGet m k).isSome ↔ k ∈ mapKeys m := by
  induction m with
  | nil => simp [mapGet, mapKeys]
  | cons hd tl ih =>
    obtain ⟨k', v'⟩ := hd
    by_cases hk : k' = k
    · subst hk; simp [mapGet, mapKeys]
    · simp [mapGet, hk, mapKeys, Ne.symm hk]
      simpa [mapKeys] using ih

/-! ## Configuration (DEFAULT_CONFIG in index.js)

`calculateOptimalConfig` rescales a few fields from host CPU/memory facts; the
fields relevant to the claims are carried here as a plain parameter bundle. -/

structure Config where
  batchSize : Nat       -- BATCH_SIZE
  parallelBatches : Nat -- PARALLEL_BATCHES
  maxRetries : Nat      -- MAX_RETRIES
  retryDelay : Nat      -- RETRY_DELAY (ms)
  maxTextLength : Nat   -- MAX_TEXT_LENGTH
  deriving Repr, DecidableEq

/-- The DEFAULT_CONFIG values of index.js. -/
def defaultConfig : Config :=
  { batchSize := 25, parallelBatches := 20, maxRetries := 3,
    retryDelay := 1000, maxTextLength := 5000 }

/-! ## Batch Grouper: `groupTextsByLength` (index.js lines 179–204)

JS `Array.prototype.sort` with comparator `a.length - b.length` is a stable
sort by length; `List.insertionSort` with `a.length ≤ b.length` is the stable
sort with the same ordering. The greedy accumulation loop is `groupStep`. -/

/-- One iteration of the grouping loop: flush the current group when adding
`text` would exceed `MAX_TEXT_LENGTH` or the group already has `BATCH_SIZE`
items (only if the current group is non-empty), then append `text`. -/
def groupStep (cfg : Config) (st : List (List String) × List String × Nat)
    (text : String) : List (List String) × List String × Nat :=
  let groups := st.1
  let cur := st.2.1
  let curLen := st.2.2
  if (cfg.maxTextLength < curLen + text.length ∨ cfg.batchSize ≤ cur.length) ∧ cur ≠ [] then
    (groups ++ [cur], [text], text.length)
  else
    (groups, cur ++ [text], curLen + text.length)

/-- `groupTextsByLength(texts)`: sort by length ascending, then greedily group. -/
def groupTextsByLength (cfg : Config) (texts : List String) : List (List String) :=
  let sortedTexts := List.insertionSort (fun a b => a.length ≤ b.length) texts
  let st := sortedTexts.foldl (groupStep cfg) ([], [], 0)
  if st.2.1.isEmpty then st.1 else st.1 ++ [st.2.1]

theorem groupStep_foldl_join (cfg : Config) (l : List String) :
    ∀ (groups : List (List String)) (cur : List String) (curLen : Nat),
      (l.foldl (groupStep cfg) (groups, cur, curLen)).1.flatten ++
        (l.foldl (groupStep cfg) (groups, cur, curLen)).2.1 =
      groups.flatten ++ cur ++ l := by
  induction l with
  | nil => intro groups cur curLen; simp
  | cons x xs ih =>
    intro groups cur curLen
    simp only [List.foldl_cons]
    by_cases h : (cfg.maxTextLength < curLen + x.length ∨ cfg.batchSize ≤ cur.length) ∧ cur ≠ []
    · rw [show groupStep cfg (groups, cur, curLen) x = (groups ++ [cur], [x], x.length) from by
        simp [groupStep, h]]
      rw [ih]
      simp
    · rw [show groupStep cfg (groups, cur, curLen) x = (groups, cur ++ [x], curLen + x.length) from by
        simp [groupStep, h]]
      rw [ih]
      simp

/-- The concatenation of all groups is exactly the sorted input list. -/
theorem groupTextsByLength_join (cfg : Config) (texts : List String) :
    (groupTextsByLength cfg texts).flatten =
      List.insertionSort (fun a b => a.length ≤ b.length) texts := by
  have h := groupStep_foldl_join cfg
    (List.insertionSort (fun a b => a.length ≤ b.length) texts) [] [] 0
  simp only [List.flatten_nil, List.nil_append] at h
  unfold groupTextsByLength
  dsimp only
  by_cases hc : ((List.insertionSort (fun a b => a.length ≤ b.length) texts).foldl
      (groupStep cfg) ([], [], 0)).2.1.isEmpty
  · rw [if_pos hc]
    rw [List.isEmpty_iff] at hc
    rw [hc, List.append_nil] at h
    exact h
  · rw [if_neg hc, List.flatten_append]
    simpa using h

/-- The groups' concatenation is a permutation of the input. -/
theorem groupTextsByLength_join_perm (cfg : Config) (texts : List String) :
    (groupTextsByLength cfg texts).flatten.Perm texts := by
  rw [groupTextsByLength_join]
  exact List.perm_insertionSort _ texts

theorem count_join_eq_sum (t : String) (L : List (List String)) :
    L.flatten.count t = (L.map (fun g => g.count t)).sum := by
  induction L with
  | nil => simp
  | cons g gs ih => simp [List.flatten, List.count_append, ih]

theorem filter_mem_length_of_sum_eq_zero (t : String) (L : List (List String))
    (h : (L.map (fun g => g.count t)).sum = 0) :
    (L.filter (fun g => decide (t ∈ g))).length = 0 := by
  induction L with
  | nil => simp
  | cons g gs ih =>
    simp only [List.map_cons, List.sum_cons, Nat.add_eq_zero] at h
    have hg : t ∉ g := by
      intro hmem
      have := List.count_pos_iff.mpr hmem
      omega
    simp [List.filter_cons, hg, ih h.2]

theorem filter_mem_length_of_sum_eq_one (t : String) (L : List (List String))
    (h : (L.map (fun g => g.count t)).sum = 1) :
    (L.filter (fun g => decide (t ∈ g))).length = 1 := by
  induction L with
  | nil => simp at h
  | cons g gs ih =>
    simp only [List.map_cons, List.sum_cons] at h
    by_cases hg : t ∈ g
    · have hpos : 0 < g.count t := List.count_pos_iff.mpr hg
      have hrest : (gs.map (fun g => g.count t)).sum = 0 := by omega
      simp [List.filter_cons, hg, filter_mem_length_of_sum_eq_zero t gs hrest]
    · have hzero : g.count t = 0 := by
        simpa using List.count_eq_zero.mpr hg
      rw [hzero, Nat.zero_add] at h
      simp [List.filter_cons, hg, ih h]

/-- C5. Batch partitioning: for a duplicate-free pending list, the union of all
batches equals the pending set, every pending text lies in exactly one batch,
and a text outside the pending set lies in no batch (hence no text appears in
two batches). -/
theorem groupTextsByLength_partitions (cfg : Config) (texts : List String)
    (hnd : texts.Nodup) :
    (∀ t, t ∈ texts ↔ ∃ g ∈ groupTextsByLength cfg texts, t ∈ g) ∧
    (∀ t ∈ texts,
      ((groupTextsByLength cfg texts).filter (fun g => decide (t ∈ g))).length = 1) ∧
    (∀ t ∉ texts,
      ((groupTextsByLength cfg texts).filter (fun g => decide (t ∈ g))).length = 0) := by
  have hperm := groupTextsByLength_join_perm cfg texts
  refine ⟨?_, ?_, ?_⟩
  · intro t
    constructor
    · intro ht
      have : t ∈ (groupTextsByLength cfg texts).flatten := hperm.mem_iff.mpr ht
      simpa [List.mem_flatten] using this
    · intro ⟨g, hg, htg⟩
      exact hperm.mem_iff.mp (List.mem_flatten.mpr ⟨g, hg, htg⟩)
  · intro t ht
    have hcount : (groupTextsByLength cfg texts).flatten.count t = 1 := by
      rw [hperm.count_eq]
      exact List.count_eq_one_of_mem hnd ht
    rw [count_join_eq_sum] at hcount
    exact filter_mem_length_of_sum_eq_one t _ hcount
  · intro t ht
    have hcount : (groupTextsByLength cfg texts).flatten.count t = 0 := by
      rw [hperm.count_eq]
      exact List.count_eq_zero.mpr ht
    rw [count_join_eq_sum] at hcount
    exact filter_mem_length_of_sum_eq_zero t _ hcount

/-- C5 witness: the partition property evaluated on a concrete pending list. -/
theorem groupTextsByLength_partitions_witness :
    (["Hallo", "Welt", "ein langer Satz"] : List String).Nodup ∧
    (∀ t ∈ (["Hallo", "Welt", "ein langer Satz"] : List String),
      ((groupTextsByLength defaultConfig ["Hallo", "Welt", "ein langer Satz"]).filter
        (fun g => decide (t ∈ g))).length = 1) := by
  refine ⟨by decide, ?_⟩
  exact (groupTextsByLength_partitions defaultConfig
    ["Hallo", "Welt", "ein langer Satz"] (by decide)).2.1

/-! ## Derived column names: JS `col.replace('_DE', '_EN')`

`String.prototype.replace` with a string pattern replaces only the first
occurrence (or prepends the replacement when the pattern is empty). -/

/-- Replace the first occurrence of `pat` in a character list by `rep`. -/
def replaceFirstChars (pat rep : List Char) : List Char → List Char
  | [] => if pat.isPrefixOf ([] : List Char) then rep else []
  | c :: rest =>
    if pat.isPrefixOf (c :: rest) then rep ++ (c :: rest).drop pat.length
    else c :: replaceFirstChars pat rep rest

/-- JS `s.replace(pat, rep)` for a plain-string pattern: first occurrence only. -/
def replaceFirst (s pat rep : String) : String :=
  ⟨replaceFirstChars pat.data rep.data s.data⟩

/-- `germanCol.replace('_DE', '_EN')` as used throughout index.js. -/
def deriveEnglishCol (col : String) : String :=
  replaceFirst col "_DE" "_EN"

/-! ## Work-Set Builder: the cache-building loop of processExcelFile
(index.js lines 551–565). `jsonData` rows are association lists; the cache
starts as `new Map()` and is filled row by row, column by column. -/

/-- Body of the builder loop for one cell: if the cell value is truthy, insert
it as a key, with the existing translation when that is truthy and `''`
otherwise; falsy cells are skipped. -/
def cacheInsert (existingTranslations : List (String × String))
    (cache : List (String × String)) (cell : Option String) :
    List (String × String) :=
  if truthy cell then
    let germanText := cell.getD ""
    if truthy (mapGet existingTranslations germanText) then
      mapSet cache germanText ((mapGet existingTranslations germanText).getD "")
    else
      mapSet cache germanText ""
  else cache

/-- `Building translation map...`: the double loop over rows and eligible
columns that populates `translationCache`. -/
def buildTranslationCache (existingTranslations : List (String × String))
    (germanColumns : List String) (jsonData : List (List (String × String))) :
    List (String × String) :=
  jsonData.foldl (fun cache row =>
    germanColumns.foldl (fun cache col =>
      cacheInsert existingTranslations cache (mapGet row col)) cache) []

theorem mem_keys_mapSet (m : List (String × String)) (k v a : String) :
    a ∈ mapKeys (mapSet m k v) ↔ a ∈ mapKeys m ∨ a = k := by
  rw [mapKeys_mapSet]
  by_cases hmem : k ∈ mapKeys m
  · simp only [hmem, if_true]
    constructor
    · exact Or.inl
    · rintro (h | rfl) <;> [exact h; exact hmem]
  · simp [hmem]

theorem mem_keys_cacheInsert (ex cache : List (String × String))
    (cell : Option String) (a : String) :
    a ∈ mapKeys (cacheInsert ex cache cell) ↔
      a ∈ mapKeys cache ∨ (cell = some a ∧ ¬a.isEmpty) := by
  match cell with
  | none => simp [cacheInsert, truthy]
  | some s =>
    by_cases hs : s.isEmpty
    · have hcell : truthy (some s) = false := by simp [truthy, hs]
      simp only [cacheInsert, hcell, Bool.false_eq_true, if_false]
      constructor
      · exact Or.inl
      · rintro (h | ⟨heq, hne⟩)
        · exact h
        · cases heq; exact absurd hs (by simpa using hne)
    · have hcell : truthy (some s) = true := by simp [truthy, hs]
      have step : cacheInsert ex cache (some s) =
          mapSet cache s (if truthy (mapGet ex s) then (mapGet ex s).getD "" else "") := by
        unfold cacheInsert
        rw [if_pos hcell]
        by_cases hex : truthy (mapGet ex s) <;> simp [hex]
      rw [step, mem_keys_mapSet]
      constructor
      · rintro (h | rfl)
        · exact Or.inl h
        · exact Or.inr ⟨rfl, by simpa using hs⟩
      · rintro (h | ⟨heq, _⟩)
        · exact Or.inl h
        · cases heq; exact Or.inr rfl

theorem keys_cacheInsert_nodup (ex cache : List (String × String))
    (cell : Option String) (h : (mapKeys cache).Nodup) :
    (mapKeys (cacheInsert ex cache cell)).Nodup := by
  unfold cacheInsert
  by_cases hc : truthy cell
  · simp only [hc, if_true]
    by_cases hex : truthy (mapGet ex (cell.getD ""))
    · simp only [hex, if_true]; exact mapKeys_mapSet_nodup _ _ _ h
    · simp only [hex, if_false]; exact mapKeys_mapSet_nodup _ _ _ h
  · simpa [hc]

theorem mem_keys_rowFold (ex : List (String × String)) (row : List (String × String)) :
    ∀ (cols : List String) (cache : List (String × String)) (a : String),
      a ∈ mapKeys (cols.foldl (fun c col => cacheInsert ex c (mapGet row col)) cache) ↔
        a ∈ mapKeys cache ∨ (¬a.isEmpty ∧ ∃ c ∈ cols, mapGet row c = some a) := by
  intro cols
  induction cols with
  | nil => intro cache a; simp
  | cons c cs ih =>
    intro cache a
    simp only [List.foldl_cons]
    rw [ih, mem_keys_cacheInsert]
    constructor
    · rintro ((h | ⟨hcell, hne⟩) | ⟨hne, c', hc', hcell⟩)
      · exact Or.inl h
      · exact Or.inr ⟨hne, c, List.mem_cons_self c cs, hcell⟩
      · exact Or.inr ⟨hne, c', List.mem_cons_of_mem c hc', hcell⟩
    · rintro (h | ⟨hne, c', hc', hcell⟩)
      · exact Or.inl (Or.inl h)
      · rcases List.mem_cons.mp hc' with rfl | hmem
        · exact Or.inl (Or.inr ⟨hcell, hne⟩)
        · exact Or.inr ⟨hne, c', hmem, hcell⟩

theorem keys_rowFold_nodup (ex : List (String × String)) (row : List (String × String)) :
    ∀ (cols : List String) (cache : List (String × String)),
      (mapKeys cache).Nodup →
      (mapKeys (cols.foldl (fun c col => cacheInsert ex c (mapGet row col)) cache)).Nodup := by
  intro cols
  induction cols with
  | nil => intro cache h; simpa
  | cons c cs ih =>
    intro cache h
    simp only [List.foldl_cons]
    exact ih _ (keys_cacheInsert_nodup _ _ _ h)

theorem mem_keys_buildTranslationCache (ex : List (String × String))
    (cols : List String) :
    ∀ (rows : List (List (String × String))) (cache : List (String × String)) (a : String),
      a ∈ mapKeys (rows.foldl (fun cache row =>
          cols.foldl (fun c col => cacheInsert ex c (mapGet row col)) cache) cache) ↔
        a ∈ mapKeys cache ∨
          (¬a.isEmpty ∧ ∃ row ∈ rows, ∃ c ∈ cols, mapGet row c = some a) := by
  intro rows
  induction rows with
  | nil => intro cache a; simp
  | cons r rs ih =>
    intro cache a
    simp only [List.foldl_cons]
    rw [ih, mem_keys_rowFold]
    constructor
    · rintro ((h | ⟨hne, c, hc, hcell⟩) | ⟨hne, row, hrow, c, hc, hcell⟩)
      · exact Or.inl h
      · exact Or.inr ⟨hne, r, List.mem_cons_self r rs, c, hc, hcell⟩
      · exact Or.inr ⟨hne, row, List.mem_cons_of_mem r hrow, c, hc, hcell⟩
    · rintro (h | ⟨hne, row, hrow, c, hc, hcell⟩)
      · exact Or.inl (Or.inl h)
      · rcases List.mem_cons.mp hrow with rfl | hmem
        · exact Or.inl (Or.inr ⟨hne, c, hc, hcell⟩)
        · exact Or.inr ⟨hne, row, hmem, c, hc, hcell⟩

/-- C4 (amended). The Translation Cache keys are exactly the non-empty cell
values of eligible columns — each appearing exactly once (no duplicate keys) —
and the empty string is never a key. Whitespace-only values, being non-empty,
ARE keys. -/
theorem buildTranslationCache_keys (ex : List (String × String))
    (cols : List String) (rows : List (List (String × String))) :
    (mapKeys (buildTranslationCache ex cols rows)).Nodup ∧
    ∀ a, a ∈ mapKeys (buildTranslationCache ex cols rows) ↔
      (¬a.isEmpty ∧ ∃ row ∈ rows, ∃ c ∈ cols, mapGet row c = some a) := by
  constructor
  · unfold buildTranslationCache
    have : ∀ (rs : List (List (String × String))) (cache : List (String × String)),
        (mapKeys cache).Nodup →
        (mapKeys (rs.foldl (fun cache row =>
          cols.foldl (fun c col => cacheInsert ex c (mapGet row col)) cache) cache)).Nodup := by
      intro rs
      induction rs with
      | nil => intro cache h; simpa
      | cons r rst ih =>
        intro cache h
        simp only [List.foldl_cons]
        exact ih _ (keys_rowFold_nodup ex r cols cache h)
    exact this rows [] (by simp [mapKeys])
  · intro a
    unfold buildTranslationCache
    rw [mem_keys_buildTranslationCache]
    simp [mapKeys]

/-- C4 counterexample: a whitespace-only cell value (a single blank, which is
non-empty but consists only of whitespace) IS added to the cache as a key,
contradicting the claim that whitespace-only cell values are never added. -/
theorem buildTranslationCache_whitespace_counterexample :
    (" ").data.all (fun c => c = ' ') = true ∧
    mapKeys (buildTranslationCache [] ["X_DE"] [[("X_DE", " ")]]) = [" "] := by
  constructor
  · decide
  · decide

/-! ## Result Materializer: the final apply loop of processExcelFile
(index.js lines 721–730). For each eligible column whose source cell is
truthy, the derived `_EN` column is assigned
`translationCache.get(row[col]) || ''`; falsy source cells are skipped
entirely (the derived column is not assigned at all). -/

/-- One column of the final apply loop, acting on one (possibly already
partially updated) row. -/
def applyColumn (translationCache : List (String × String))
    (row : List (String × String)) (col : String) : List (String × String) :=
  if truthy (mapGet row col) then
    mapSet row (deriveEnglishCol col)
      ((mapGet translationCache ((mapGet row col).getD "")).getD "")
  else row

/-- `Applying final translations to Excel file...`: the per-row loop over
eligible columns (writes happen in place, so later columns see earlier
writes, which the fold reproduces). -/
def applyTranslationsFinal (translationCache : List (String × String))
    (germanColumns : List String) (row : List (String × String)) :
    List (String × String) :=
  germanColumns.foldl (applyColumn translationCache) row

/-- The whole-file materialization: every row updated. -/
def materializeRows (translationCache : List (String × String))
    (germanColumns : List String) (jsonData : List (List (String × String))) :
    List (List (String × String)) :=
  jsonData.map (applyTranslationsFinal translationCache germanColumns)

/-- C1 counterexample: with the final cache mapping `"Hallo"` to the error
sentinel `"[TRANSLATION ERROR: timeout]"`, the materialized row carries the
sentinel itself in the derived `Title_EN` column (the claim says the derived
column is left absent or empty); and for a row whose source cell is the empty
string, the derived column is left absent rather than set to the empty string. -/
theorem applyTranslationsFinal_counterexample :
    mapGet (applyTranslationsFinal [("Hallo", "[TRANSLATION ERROR: timeout]")]
        ["Title_DE"] [("Title_DE", "Hallo")]) "Title_EN"
      = some "[TRANSLATION ERROR: timeout]" ∧
    mapGet (applyTranslationsFinal [("Hallo", "[TRANSLATION ERROR: timeout]")]
        ["Title_DE"] [("Title_DE", "")]) "Title_EN" = none := by
  constructor
  · decide
  · decide

/-- Reading a column no fold step writes to is reading it in the input row. -/
theorem mapGet_applyFold_untouched (cache : List (String × String)) (k : String) :
    ∀ (cols : List String) (row : List (String × String)),
      (∀ c ∈ cols, deriveEnglishCol c ≠ k) →
      mapGet (cols.foldl (applyColumn cache) row) k = mapGet row k := by
  intro cols
  induction cols with
  | nil => intro row _; simp
  | cons c cs ih =>
    intro row h
    simp only [List.foldl_cons]
    rw [ih _ (fun c' hc' => h c' (List.mem_cons_of_mem c hc'))]
    unfold applyColumn
    by_cases ht : truthy (mapGet row c)
    · rw [if_pos ht, mapGet_mapSet_other _ _ _ _
        (fun hk => h c (List.mem_cons_self c cs) hk.symm)]
    · rw [if_neg ht]

/-- C1 (amended). For every row and eligible column — assuming, as holds for the
configured column names, that no derived `_EN` name collides with a source
column and the derived names are pairwise distinct — the materialized row
satisfies: if the source cell is truthy, the derived column holds the cache
value verbatim when the cache has one (so the error sentinel IS propagated into
the derived column) and the empty string when the cache value is missing or
empty; if the source cell is empty or absent, the derived column is left
exactly as it was (absent if absent). -/
theorem applyTranslationsFinal_spec (cache : List (String × String))
    (cols : List String) (row : List (String × String))
    (hsrc : ∀ c ∈ cols, ∀ c' ∈ cols, deriveEnglishCol c ≠ c')
    (hdrv : (cols.map deriveEnglishCol).Nodup) :
    ∀ col ∈ cols,
      (truthy (mapGet row col) →
        mapGet (applyTranslationsFinal cache cols row) (deriveEnglishCol col)
          = some ((mapGet cache ((mapGet row col).getD "")).getD "")) ∧
      (¬truthy (mapGet row col) →
        mapGet (applyTranslationsFinal cache cols row) (deriveEnglishCol col)
          = mapGet row (deriveEnglishCol col)) := by
  induction cols generalizing row with
  | nil => intro col hcol; cases hcol
  | cons c cs ih =>
    intro col hcol
    rw [List.map_cons, List.nodup_cons] at hdrv
    rcases List.mem_cons.mp hcol with rfl | hmem
    · -- `col` is the head: it is processed first, and no later step writes to
      -- its derived column (pairwise-distinct derived names) or reads it
      -- (derived names never equal source names).
      have hnotin : ∀ c' ∈ cs, deriveEnglishCol c' ≠ deriveEnglishCol col := by
        intro c' hc' heq
        exact hdrv.1 (heq ▸ List.mem_map_of_mem deriveEnglishCol hc')
      constructor
      · intro ht
        unfold applyTranslationsFinal
        simp only [List.foldl_cons]
        rw [mapGet_applyFold_untouched cache _ cs _ hnotin]
        unfold applyColumn
        rw [if_pos ht, mapGet_mapSet_self]
      · intro ht
        unfold applyTranslationsFinal
        simp only [List.foldl_cons]
        rw [mapGet_applyFold_untouched cache _ cs _ hnotin]
        unfold applyColumn
        rw [if_neg ht]
    · -- `col` is processed later: the head step never writes to `col` itself
      -- (derived ≠ source) nor to `deriveEnglishCol col` (distinct deriveds).
      have hsrc' : ∀ a ∈ cs, ∀ b ∈ cs, deriveEnglishCol a ≠ b := fun a ha b hb =>
        hsrc a (List.mem_cons_of_mem c ha) b (List.mem_cons_of_mem c hb)
      have hdrv' : (cs.map deriveEnglishCol).Nodup := hdrv.2
      have hread : mapGet (applyColumn cache row c) col = mapGet row col := by
        unfold applyColumn
        by_cases ht : truthy (mapGet row c)
        · rw [if_pos ht, mapGet_mapSet_other _ _ _ _
            (Ne.symm (hsrc c (List.mem_cons_self c cs) col hcol))]
        · rw [if_neg ht]
      have hreadEn : mapGet (applyColumn cache row c) (deriveEnglishCol col)
          = mapGet row (deriveEnglishCol col) := by
        unfold applyColumn
        by_cases ht : truthy (mapGet row c)
        · have hne : deriveEnglishCol col ≠ deriveEnglishCol c := by
            intro heq
            exact hdrv.1 (heq ▸ List.mem_map_of_mem deriveEnglishCol hmem)
          rw [if_pos ht, mapGet_mapSet_other _ _ _ _ hne]
        · rw [if_neg ht]
      have := ih (applyColumn cache row c) hsrc' hdrv' col hmem
      constructor
      · intro ht
        unfold applyTranslationsFinal
        simp only [List.foldl_cons]
        have h1 := this.1 (by rwa [hread])
        unfold applyTranslationsFinal at h1
        rw [h1, hread]
      · intro ht
        unfold applyTranslationsFinal
        simp only [List.foldl_cons]
        have h2 := this.2 (by rwa [hread])
        unfold applyTranslationsFinal at h2
        rw [h2, hreadEn]

/-- C1 (amended) witness: concrete evaluation with one eligible column, a
sentinel-valued cache entry and a truthy source cell. -/
theorem applyTranslationsFinal_spec_witness :
    truthy (mapGet [("Title_DE", "Hallo")] "Title_DE") = true ∧
    mapGet (applyTranslationsFinal [("Hallo", "[TRANSLATION ERROR: timeout]")]
        ["Title_DE"] [("Title_DE", "Hallo")]) (deriveEnglishCol "Title_DE")
      = some ((mapGet [("Hallo", "[TRANSLATION ERROR: timeout]")]
          ((mapGet [("Title_DE", "Hallo")] "Title_DE").getD "")).getD "") := by
  refine ⟨by decide, ?_⟩
  exact (applyTranslationsFinal_spec [("Hallo", "[TRANSLATION ERROR: timeout]")]
    ["Title_DE"] [("Title_DE", "Hallo")] (by decide) (by decide)
    "Title_DE" (by decide)).1 (by decide)

/-! ## Translation Executor: `translateBatch` (index.js lines 355–418)

The remote service is an oracle: attempt `k` either fails with an error
message (any sub-batch rejection, non-2xx status or network error makes
`Promise.all` reject) or succeeds, in which case the returned parallel list
for a sub-batch `sb` is `sb.map f` for the service's translation function `f`.
The loop makes up to `MAX_RETRIES` attempts; after a failed non-final attempt
it sleeps `RETRY_DELAY * 2^retry` ms; after the final failure it maps every
unique text to the error sentinel `[TRANSLATION ERROR: <message>]`. -/

/-- `[...new Set(l)]`: deduplicate keeping first occurrences. -/
def dedupFirstAux (seen : List String) : List String → List String
  | [] => []
  | t :: rest =>
    if t ∈ seen then dedupFirstAux seen rest
    else t :: dedupFirstAux (t :: seen) rest

/-- `[...new Set(texts.filter(text => text))]`: drop falsy (empty) entries,
then deduplicate in first-occurrence order. -/
def uniqueTexts (texts : List String) : List String :=
  dedupFirstAux [] (texts.filter (fun t => !t.isEmpty))

theorem mem_dedupFirstAux (a : String) :
    ∀ (l : List String) (seen : List String),
      a ∈ dedupFirstAux seen l ↔ a ∈ l ∧ a ∉ seen := by
  intro l
  induction l with
  | nil => intro seen; simp [dedupFirstAux]
  | cons t rest ih =>
    intro seen
    by_cases ht : t ∈ seen
    · rw [dedupFirstAux, if_pos ht, ih, List.mem_cons]
      constructor
      · rintro ⟨h1, h2⟩
        exact ⟨Or.inr h1, h2⟩
      · rintro ⟨h1, h2⟩
        rcases h1 with rfl | h1
        · exact absurd ht h2
        · exact ⟨h1, h2⟩
    · rw [dedupFirstAux, if_neg ht]
      simp only [List.mem_cons, ih]
      constructor
      · rintro (rfl | ⟨h1, h2⟩)
        · exact ⟨Or.inl rfl, ht⟩
        · exact ⟨Or.inr h1, fun hs => h2 (Or.inr hs)⟩
      · rintro ⟨h1, h2⟩
        rcases h1 with rfl | h1
        · exact Or.inl rfl
        · by_cases hta : a = t
          · exact Or.inl hta
          · refine Or.inr ⟨h1, fun hs => ?_⟩
            rcases hs with h | h
            · exact hta h
            · exact h2 h

theorem nodup_dedupFirstAux :
    ∀ (l : List String) (seen : List String), (dedupFirstAux seen l).Nodup := by
  intro l
  induction l with
  | nil => intro seen; simp [dedupFirstAux]
  | cons t rest ih =>
    intro seen
    by_cases ht : t ∈ seen
    · rw [dedupFirstAux, if_pos ht]; exact ih seen
    · rw [dedupFirstAux, if_neg ht]
      refine List.nodup_cons.mpr ⟨?_, ih (t :: seen)⟩
      intro hmem
      exact ((mem_dedupFirstAux t rest (t :: seen)).mp hmem).2 (List.mem_cons_self t seen)

theorem dedupFirstAux_eq_self :
    ∀ (l : List String) (seen : List String), l.Nodup → (∀ a ∈ l, a ∉ seen) →
      dedupFirstAux seen l = l := by
  intro l
  induction l with
  | nil => intro seen _ _; rfl
  | cons t rest ih =>
    intro seen hnd hdisj
    rw [dedupFirstAux, if_neg (hdisj t (List.mem_cons_self t rest))]
    congr 1
    refine ih _ (List.nodup_cons.mp hnd).2 ?_
    intro a ha
    rw [List.mem_cons]
    rintro (rfl | hseen)
    · exact (List.nodup_cons.mp hnd).1 ha
    · exact hdisj a (List.mem_cons_of_mem t ha) hseen

theorem mem_uniqueTexts (a : String) (texts : List String) :
    a ∈ uniqueTexts texts ↔ a ∈ texts ∧ ¬a.isEmpty := by
  rw [uniqueTexts, mem_dedupFirstAux]
  simp [List.mem_filter]

theorem uniqueTexts_nodup (texts : List String) : (uniqueTexts texts).Nodup :=
  nodup_dedupFirstAux _ _

theorem uniqueTexts_eq_self (texts : List String) (hnd : texts.Nodup)
    (hne : ∀ t ∈ texts, ¬t.isEmpty) : uniqueTexts texts = texts := by
  rw [uniqueTexts, List.filter_eq_self.mpr (fun a ha => by simpa using hne a ha)]
  exact dedupFirstAux_eq_self texts [] hnd (by simp)

/-- The slicing loop `for (i = 0; i < n; i += size) slice(i, i + size)`,
with fuel bounding the iteration count (each step consumes ≥ 1 element when
`1 ≤ size`). -/
def chunkAux (size : Nat) : Nat → List String → List (List String)
  | 0, _ => []
  | _ + 1, [] => []
  | fuel + 1, x :: xs => (x :: xs).take size :: chunkAux size fuel ((x :: xs).drop size)

/-- Split `l` into consecutive sub-batches of `size` elements (last one may be
shorter). -/
def chunkList (size : Nat) (l : List String) : List (List String) :=
  chunkAux size l.length l

theorem chunkAux_flatten (size : Nat) (hsize : 1 ≤ size) :
    ∀ (fuel : Nat) (l : List String), l.length ≤ fuel →
      (chunkAux size fuel l).flatten = l := by
  intro fuel
  induction fuel with
  | zero =>
    intro l hl
    rw [Nat.le_zero, List.length_eq_zero] at hl
    subst hl; rfl
  | succ n ih =>
    intro l hl
    match l with
    | [] => rfl
    | x :: xs =>
      have hdrop : ((x :: xs).drop size).length ≤ n := by
        calc ((x :: xs).drop size).length = (x :: xs).length - size := by simp
          _ ≤ (x :: xs).length - 1 := Nat.sub_le_sub_left hsize _
          _ ≤ n := by simpa using Nat.sub_le_sub_right hl 1
      calc (chunkAux size (n + 1) (x :: xs)).flatten
          = (x :: xs).take size ++ (chunkAux size n ((x :: xs).drop size)).flatten := by
            simp [chunkAux]
        _ = (x :: xs).take size ++ (x :: xs).drop size := by rw [ih _ hdrop]
        _ = x :: xs := List.take_append_drop _ _

theorem chunkList_flatten (size : Nat) (hsize : 1 ≤ size) (l : List String) :
    (chunkList size l).flatten = l :=
  chunkAux_flatten size hsize l.length l le_rfl

/-- `Math.max(1, Math.ceil(uniqueTexts.length / PARALLEL_BATCHES))`. -/
def subBatchSize (cfg : Config) (n : Nat) : Nat :=
  max 1 ((n + cfg.parallelBatches - 1) / cfg.parallelBatches)

/-- The sub-batches of one attempt. -/
def subBatchesOf (cfg : Config) (unique : List String) : List (List String) :=
  chunkList (subBatchSize cfg unique.length) unique

/-- Merging one successful attempt: each sub-batch's parallel response list is
`sb.map f`; `result.texts.forEach((text, i) => map.set(text, translations[i]))`
over all sub-batches in order. -/
def attemptTranslate (cfg : Config) (f : String → String) (unique : List String) :
    List (String × String) :=
  ((subBatchesOf cfg unique).map (fun sb => sb.map (fun t => (t, f t)))).flatten.foldl
    (fun m p => mapSet m p.1 p.2) []

/-- The error sentinel written on retry exhaustion (index.js line 412). -/
def errorSentinel (msg : String) : String :=
  "[TRANSLATION ERROR: " ++ msg ++ "]"

/-- Recognizer for sentinel values (used only in theorem statements). -/
def isErrorSentinel (s : String) : Bool :=
  ("[TRANSLATION ERROR: ").data.isPrefixOf s.data

/-- Sleep before the next attempt after failed attempt `k` (index.js line 415):
`RETRY_DELAY * Math.pow(2, retry)`; the code calls no random source here. -/
def batchRetryDelay (cfg : Config) (k : Nat) : Nat :=
  cfg.retryDelay * 2 ^ k

/-- Result of `translateBatch`: the translation map, the number of fetch
requests initiated, and the list of backoff delays slept (ms, in order). -/
structure BatchResult where
  translations : List (String × String)
  requests : Nat
  delays : List Nat
  deriving Repr, DecidableEq

/-- The retry loop of `translateBatch`: `attemptsLeft` counts attempts still
allowed (initially `MAX_RETRIES`), `k` is the 0-indexed attempt number.
On the final failed attempt every unique text is mapped to the sentinel.
(The `attemptsLeft = 0` base case is unreachable for `MAX_RETRIES > 0`;
with `MAX_RETRIES = 0` the JS loop body never runs.) -/
def translateBatchLoop (cfg : Config) (oracle : Nat → Except String (String → String))
    (unique : List String) : Nat → Nat → BatchResult
  | 0, _ => ⟨[], 0, []⟩
  | attemptsLeft + 1, k =>
    let nreq := (subBatchesOf cfg unique).length
    match oracle k with
    | .ok f => ⟨attemptTranslate cfg f unique, nreq, []⟩
    | .error msg =>
      if attemptsLeft = 0 then
        ⟨unique.map (fun t => (t, errorSentinel msg)), nreq, []⟩
      else
        let rec' := translateBatchLoop cfg oracle unique attemptsLeft (k + 1)
        ⟨rec'.translations, nreq + rec'.requests, batchRetryDelay cfg k :: rec'.delays⟩

/-- `translateBatch(texts, batchIndex)`: dedupe/filter, early return on empty,
otherwise run the retry loop. -/
def translateBatch (cfg : Config) (oracle : Nat → Except String (String → String))
    (texts : List String) : BatchResult :=
  let unique := uniqueTexts texts
  if unique.isEmpty then ⟨[], 0, []⟩
  else translateBatchLoop cfg oracle unique cfg.maxRetries 0

theorem flatten_map_map {α β : Type} (h : α → β) (L : List (List α)) :
    (L.map (fun sb => sb.map h)).flatten = L.flatten.map h := by
  induction L with
  | nil => rfl
  | cons x xs ih =>
    rw [List.map_cons, List.flatten_cons, List.flatten_cons, List.map_append, ih]

theorem subBatchSize_pos (cfg : Config) (n : Nat) : 1 ≤ subBatchSize cfg n :=
  le_max_left 1 _

theorem subBatchesOf_flatten (cfg : Config) (unique : List String) :
    (subBatchesOf cfg unique).flatten = unique :=
  chunkList_flatten _ (subBatchSize_pos cfg unique.length) unique

theorem attemptTranslate_eq_fold (cfg : Config) (f : String → String)
    (unique : List String) :
    attemptTranslate cfg f unique =
      (unique.map (fun t => (t, f t))).foldl (fun m p => mapSet m p.1 p.2) [] := by
  unfold attemptTranslate
  rw [flatten_map_map, subBatchesOf_flatten]

theorem mapGet_foldl_pairs (f : String → String) :
    ∀ (l : List String) (m0 : List (String × String)) (t : String),
      mapGet ((l.map (fun t => (t, f t))).foldl (fun m p => mapSet m p.1 p.2) m0) t
        = if t ∈ l then some (f t) else mapGet m0 t := by
  intro l
  induction l with
  | nil => intro m0 t; simp
  | cons u rest ih =>
    intro m0 t
    simp only [List.map_cons, List.foldl_cons]
    rw [ih]
    by_cases hmem : t ∈ rest
    · simp [hmem]
    · by_cases htu : t = u
      · subst htu
        simp [hmem, mapGet_mapSet_self]
      · simp only [hmem, if_false, List.mem_cons, htu, false_or]
        rw [mapGet_mapSet_other _ _ _ _ htu]

theorem mapGet_attemptTranslate (cfg : Config) (f : String → String)
    (unique : List String) (t : String) :
    mapGet (attemptTranslate cfg f unique) t
      = if t ∈ unique then some (f t) else none := by
  rw [attemptTranslate_eq_fold, mapGet_foldl_pairs]
  by_cases h : t ∈ unique <;> simp [h, mapGet]

theorem mapKeys_foldl_mapSet_nodup (ps : List (String × String)) :
    ∀ m0 : List (String × String), (mapKeys m0).Nodup →
      (mapKeys (ps.foldl (fun m p => mapSet m p.1 p.2) m0)).Nodup := by
  induction ps with
  | nil => intro m0 h; simpa
  | cons p rest ih =>
    intro m0 h
    simp only [List.foldl_cons]
    exact ih _ (mapKeys_mapSet_nodup _ _ _ h)

theorem mem_mapKeys_foldl_mapSet (ps : List (String × String)) :
    ∀ (m0 : List (String × String)) (a : String),
      a ∈ mapKeys (ps.foldl (fun m p => mapSet m p.1 p.2) m0) →
      a ∈ mapKeys m0 ∨ a ∈ ps.map Prod.fst := by
  induction ps with
  | nil => intro m0 a h; exact Or.inl h
  | cons p rest ih =>
    intro m0 a h
    simp only [List.foldl_cons] at h
    rcases ih _ a h with h' | h'
    · rcases (mem_keys_mapSet m0 p.1 p.2 a).mp h' with h'' | rfl
      · exact Or.inl h''
      · exact Or.inr (by simp)
    · exact Or.inr (List.mem_cons_of_mem _ h')

theorem mapKeys_map_pair (l : List String) (g : String → String) :
    mapKeys (l.map (fun t => (t, g t))) = l := by
  induction l with
  | nil => rfl
  | cons x xs ih =>
    simp only [List.map_cons, mapKeys, List.map] at ih ⊢
    rw [ih]

/-- The three possible shapes of the retry loop's translation map. -/
theorem translateBatchLoop_translations (cfg : Config)
    (oracle : Nat → Except String (String → String)) (unique : List String) :
    ∀ (attemptsLeft k : Nat),
      (translateBatchLoop cfg oracle unique attemptsLeft k).translations = [] ∨
      (∃ f, (translateBatchLoop cfg oracle unique attemptsLeft k).translations
        = attemptTranslate cfg f unique) ∨
      (∃ msg, (translateBatchLoop cfg oracle unique attemptsLeft k).translations
        = unique.map (fun t => (t, errorSentinel msg))) := by
  intro attemptsLeft
  induction attemptsLeft with
  | zero => intro k; exact Or.inl rfl
  | succ a ih =>
    intro k
    rw [translateBatchLoop]
    match horacle : oracle k with
    | .ok f => exact Or.inr (Or.inl ⟨f, rfl⟩)
    | .error msg =>
      by_cases ha : a = 0
      · subst ha
        exact Or.inr (Or.inr ⟨msg, by simp⟩)
      · simpa [ha] using ih (k + 1)

theorem translateBatch_keys_nodup (cfg : Config)
    (oracle : Nat → Except String (String → String)) (texts : List String) :
    (mapKeys (translateBatch cfg oracle texts).translations).Nodup := by
  unfold translateBatch
  by_cases hempty : (uniqueTexts texts).isEmpty
  · simp [hempty, mapKeys]
  · simp only [hempty, Bool.false_eq_true, if_false]
    rcases translateBatchLoop_translations cfg oracle (uniqueTexts texts)
      cfg.maxRetries 0 with h | ⟨f, h⟩ | ⟨msg, h⟩
    · rw [h]; simp [mapKeys]
    · rw [h, attemptTranslate_eq_fold]
      exact mapKeys_foldl_mapSet_nodup _ [] (by simp [mapKeys])
    · rw [h, mapKeys_map_pair]
      exact uniqueTexts_nodup texts

theorem translateBatch_keys_subset (cfg : Config)
    (oracle : Nat → Except String (String → String)) (texts : List String) :
    ∀ a, a ∈ mapKeys (translateBatch cfg oracle texts).translations →
      a ∈ uniqueTexts texts := by
  intro a
  unfold translateBatch
  by_cases hempty : (uniqueTexts texts).isEmpty
  · simp [hempty, mapKeys]
  · simp only [hempty, Bool.false_eq_true, if_false]
    intro h
    rcases translateBatchLoop_translations cfg oracle (uniqueTexts texts)
      cfg.maxRetries 0 with h' | ⟨f, h'⟩ | ⟨msg, h'⟩
    · rw [h'] at h; simp [mapKeys] at h
    · rw [h', attemptTranslate_eq_fold] at h
      rcases mem_mapKeys_foldl_mapSet _ _ _ h with h'' | h''
      · simp [mapKeys] at h''
      · simpa [List.map_map, Function.comp] using h''
    · rw [h', mapKeys_map_pair] at h
      exact h

/-- C10. `translateBatch` first discards falsy entries and duplicates (keeping
first occurrences); when nothing remains it returns the empty map with zero
requests issued; consequently the keys of any returned map lie among the
distinct non-empty input texts. -/
theorem translateBatch_dedup_and_empty (cfg : Config)
    (oracle : Nat → Except String (String → String)) (texts : List String) :
    ((uniqueTexts texts).Nodup ∧
      (∀ t, t ∈ uniqueTexts texts ↔ t ∈ texts ∧ ¬t.isEmpty)) ∧
    (uniqueTexts texts = [] →
      translateBatch cfg oracle texts = ⟨[], 0, []⟩) ∧
    (∀ a, a ∈ mapKeys (translateBatch cfg oracle texts).translations →
      a ∈ texts ∧ ¬a.isEmpty) := by
  refine ⟨⟨uniqueTexts_nodup texts, fun t => mem_uniqueTexts t texts⟩, ?_, ?_⟩
  · intro hempty
    unfold translateBatch
    simp [hempty]
  · intro a ha
    exact (mem_uniqueTexts a texts).mp (translateBatch_keys_subset cfg oracle texts a ha)

/-- C10 witness: a list whose entries are all empty yields the empty result
with zero remote requests. -/
theorem translateBatch_dedup_and_empty_witness :
    uniqueTexts ["", ""] = [] ∧
    translateBatch defaultConfig (fun _ => Except.error "down") ["", ""]
      = ⟨[], 0, []⟩ := by
  refine ⟨by decide, ?_⟩
  exact (translateBatch_dedup_and_empty defaultConfig
    (fun _ => Except.error "down") ["", ""]).2.1 (by decide)

/-! ## The run loop (index.js lines 630–663): batches are dispatched in order
and each resolved map is merged into the shared translation cache via
`translationCache.set(original, translated)` over the map's entries. The
parallel grouping into `batchGroups` of PARALLEL_BATCHES only affects timing:
`Promise.all` preserves order, so the merge order is the batch order, which
the sequential fold reproduces. `oracles i` is the remote-service oracle seen
by batch number `i`. -/

/-- Merge one batch's translation map into the cache (lines 659–663). -/
def mergeMap (cache m : List (String × String)) : List (String × String) :=
  m.foldl (fun c p => mapSet c p.1 p.2) cache

/-- Process the remaining batches, `idx` being the number of the next batch. -/
def runBatches (cfg : Config) (oracles : Nat → Nat → Except String (String → String)) :
    List (List String) → Nat → List (String × String) → List (String × String)
  | [], _, cache => cache
  | b :: bs, idx, cache =>
      runBatches cfg oracles bs (idx + 1)
        (mergeMap cache (translateBatch cfg (oracles idx) b).translations)

theorem mapGet_eq_none_of_not_mem (m : List (String × String)) (k : String)
    (h : k ∉ mapKeys m) : mapGet m k = none := by
  by_cases hs : (mapGet m k).isSome
  · exact absurd ((mapGet_isSome_iff_mem m k).mp hs) h
  · exact Option.not_isSome_iff_eq_none.mp hs

theorem mapGet_mergeMap (m : List (String × String)) :
    ∀ (cache : List (String × String)) (k : String), (mapKeys m).Nodup →
      mapGet (mergeMap cache m) k =
        match mapGet m k with
        | some v => some v
        | none => mapGet cache k := by
  induction m with
  | nil => intro cache k _; simp [mergeMap, mapGet]
  | cons p rest ih =>
    intro cache k hnd
    obtain ⟨k0, v0⟩ := p
    simp only [mapKeys, List.map_cons, List.nodup_cons] at hnd
    have hnotin : k0 ∉ mapKeys rest := by simpa [mapKeys] using hnd.1
    have hrest : (mapKeys rest).Nodup := by simpa [mapKeys] using hnd.2
    show mapGet (mergeMap (mapSet cache k0 v0) rest) k = _
    rw [ih _ k hrest]
    by_cases hk : k0 = k
    · subst hk
      rw [mapGet_eq_none_of_not_mem rest k0 hnotin]
      simp [mapGet, mapGet_mapSet_self]
    · have : mapGet ((k0, v0) :: rest) k = mapGet rest k := by
        simp [mapGet, hk]
      rw [this]
      match mapGet rest k with
      | some v => rfl
      | none => exact mapGet_mapSet_other _ _ _ _ (Ne.symm hk)

/-- Batches whose texts do not contain `t` never change the cache at `t`. -/
theorem runBatches_preserves (cfg : Config)
    (oracles : Nat → Nat → Except String (String → String)) (t : String) :
    ∀ (bs : List (List String)) (idx : Nat) (cache : List (String × String)),
      (∀ b ∈ bs, t ∉ b) →
      mapGet (runBatches cfg oracles bs idx cache) t = mapGet cache t := by
  intro bs
  induction bs with
  | nil => intro idx cache _; rfl
  | cons b rest ih =>
    intro idx cache h
    show mapGet (runBatches cfg oracles rest (idx + 1) _) t = _
    rw [ih _ _ (fun b' hb' => h b' (List.mem_cons_of_mem b hb'))]
    rw [mapGet_mergeMap _ _ _ (translateBatch_keys_nodup cfg (oracles idx) b)]
    have hnot : t ∉ mapKeys (translateBatch cfg (oracles idx) b).translations := by
      intro hmem
      have := translateBatch_keys_subset cfg (oracles idx) b t hmem
      exact h b (List.mem_cons_self b rest) ((mem_uniqueTexts t b).mp this).1
    rw [mapGet_eq_none_of_not_mem _ _ hnot]

/-- The cache value at `t` after the whole run is the value batch
`bs₁.length` assigned to it, provided that batch assigned one and no later
batch contains `t`. -/
theorem runBatches_value_at (cfg : Config)
    (oracles : Nat → Nat → Except String (String → String))
    (b : List String) (bs₂ : List (List String)) (t : String)
    (hdisj : ∀ b' ∈ bs₂, t ∉ b') :
    ∀ (bs₁ : List (List String)) (idx : Nat) (cache : List (String × String)),
      (mapGet (translateBatch cfg (oracles (idx + bs₁.length)) b).translations t).isSome →
      mapGet (runBatches cfg oracles (bs₁ ++ b :: bs₂) idx cache) t
        = mapGet (translateBatch cfg (oracles (idx + bs₁.length)) b).translations t := by
  intro bs₁
  induction bs₁ with
  | nil =>
    intro idx cache hsome
    simp only [List.length_nil, Nat.add_zero] at hsome ⊢
    show mapGet (runBatches cfg oracles bs₂ (idx + 1) _) t = _
    rw [runBatches_preserves cfg oracles t bs₂ _ _ hdisj]
    rw [mapGet_mergeMap _ _ _ (translateBatch_keys_nodup cfg (oracles idx) b)]
    obtain ⟨v, hv⟩ := Option.isSome_iff_exists.mp hsome
    rw [hv]
  | cons b₁ bs₁' ih =>
    intro idx cache hsome
    have harith : idx + (b₁ :: bs₁').length = (idx + 1) + bs₁'.length := by
      simp [Nat.add_comm, Nat.add_assoc, Nat.add_left_comm]
    rw [harith] at hsome ⊢
    show mapGet (runBatches cfg oracles (bs₁' ++ b :: bs₂) (idx + 1) _) t = _
    exact ih (idx + 1) _ hsome

theorem mapGet_map_pair (l : List String) (g : String → String) (t : String) :
    mapGet (l.map (fun t => (t, g t))) t = if t ∈ l then some (g t) else none := by
  induction l with
  | nil => simp [mapGet]
  | cons x xs ih =>
    simp only [List.map_cons, mapGet]
    by_cases hx : x = t
    · subst hx; simp
    · rw [if_neg hx, ih]
      by_cases hmem : t ∈ xs
      · simp [hmem]
      · simp [hmem, hx, Ne.symm hx]

/-- If every attempt the loop will make fails, the loop returns the sentinel
map over the unique texts. -/
theorem translateBatchLoop_all_fail (cfg : Config)
    (oracle : Nat → Except String (String → String)) (unique : List String) :
    ∀ (attemptsLeft k0 : Nat), 0 < attemptsLeft →
      (∀ k, k0 ≤ k → k < k0 + attemptsLeft → ∃ msg, oracle k = Except.error msg) →
      ∃ msg, (translateBatchLoop cfg oracle unique attemptsLeft k0).translations
        = unique.map (fun t => (t, errorSentinel msg)) := by
  intro attemptsLeft
  induction attemptsLeft with
  | zero => intro k0 h; omega
  | succ a ih =>
    intro k0 _ hfail
    obtain ⟨msg, hmsg⟩ := hfail k0 le_rfl (by omega)
    by_cases ha : a = 0
    · subst ha
      refine ⟨msg, ?_⟩
      simp [translateBatchLoop, hmsg]
    · obtain ⟨msg', h'⟩ := ih (k0 + 1) (Nat.pos_of_ne_zero ha)
        (fun k hk1 hk2 => hfail k (by omega) (by omega))
      refine ⟨msg', ?_⟩
      simp [translateBatchLoop, hmsg, ha, h']

/-- A batch of duplicate-free non-empty texts whose every attempt fails
resolves to the sentinel map over exactly its own texts. -/
theorem translateBatch_all_fail (cfg : Config)
    (oracle : Nat → Except String (String → String)) (b : List String)
    (hmr : 0 < cfg.maxRetries) (hnd : b.Nodup) (hne : ∀ t ∈ b, ¬t.isEmpty)
    (hfail : ∀ k, k < cfg.maxRetries → ∃ msg, oracle k = Except.error msg) :
    ∃ msg, (translateBatch cfg oracle b).translations
      = b.map (fun t => (t, errorSentinel msg)) := by
  have huniq : uniqueTexts b = b := uniqueTexts_eq_self b hnd hne
  unfold translateBatch
  rw [huniq]
  by_cases hb : b.isEmpty
  · rw [List.isEmpty_iff] at hb
    subst hb
    exact ⟨"", by simp⟩
  · simp only [hb, Bool.false_eq_true, if_false]
    exact translateBatchLoop_all_fail cfg oracle b cfg.maxRetries 0 hmr
      (fun k hk1 hk2 => hfail k (by omega))

/-- A batch whose first attempt succeeds resolves every one of its (duplicate-
free, non-empty) texts to the service's translation. -/
theorem translateBatch_first_ok (cfg : Config)
    (oracle : Nat → Except String (String → String)) (b : List String)
    (f : String → String) (hmr : 0 < cfg.maxRetries) (hok : oracle 0 = Except.ok f)
    (hnd : b.Nodup) (hne : ∀ t ∈ b, ¬t.isEmpty) :
    ∀ t ∈ b, mapGet (translateBatch cfg oracle b).translations t = some (f t) := by
  intro t ht
  have huniq : uniqueTexts b = b := uniqueTexts_eq_self b hnd hne
  have hb : b.isEmpty = false := by
    cases b with
    | nil => cases ht
    | cons x xs => rfl
  unfold translateBatch
  rw [huniq]
  simp only [hb, Bool.false_eq_true, if_false]
  obtain ⟨a, hmra⟩ : ∃ a, cfg.maxRetries = a + 1 := ⟨cfg.maxRetries - 1, by omega⟩
  rw [hmra]
  have : (translateBatchLoop cfg oracle b (a + 1) 0).translations
      = attemptTranslate cfg f b := by
    simp [translateBatchLoop, hok]
  rw [this, mapGet_attemptTranslate, if_pos ht]

/-- C6. Retry exhaustion: in a run over batch list `bs₁ ++ b :: bs₂` (batch
`b` has number `bs₁.length`; batches hold unique non-empty texts, pairwise
disjoint as the grouper guarantees), if every attempt of batch `b` up to
`MAX_RETRIES` fails, then every text of `b` ends mapped to the error sentinel
in the final cache, and the run still processes subsequent batches: any later
batch `b'` whose first attempt succeeds gets all its texts translated in the
final cache. -/
theorem runBatches_retry_exhaustion (cfg : Config)
    (oracles : Nat → Nat → Except String (String → String))
    (bs₁ : List (List String)) (b : List String) (bs₂ : List (List String))
    (hmr : 0 < cfg.maxRetries)
    (hnd : b.Nodup) (hne : ∀ t ∈ b, ¬t.isEmpty)
    (hdisj : ∀ b' ∈ bs₂, ∀ t ∈ b, t ∉ b')
    (hfail : ∀ k, k < cfg.maxRetries → ∃ msg, oracles bs₁.length k = Except.error msg) :
    (∀ t ∈ b, ∃ msg,
      mapGet (runBatches cfg oracles (bs₁ ++ b :: bs₂) 0 []) t
        = some (errorSentinel msg)) ∧
    (∀ bpre b' bpost, bs₂ = bpre ++ b' :: bpost →
      ∀ f, oracles (bs₁.length + 1 + bpre.length) 0 = Except.ok f →
      b'.Nodup → (∀ t ∈ b', ¬t.isEmpty) → (∀ b'' ∈ bpost, ∀ t ∈ b', t ∉ b'') →
      ∀ t ∈ b', mapGet (runBatches cfg oracles (bs₁ ++ b :: bs₂) 0 []) t
        = some (f t)) := by
  constructor
  · intro t ht
    obtain ⟨msg, hmsg⟩ := translateBatch_all_fail cfg (oracles bs₁.length) b hmr hnd hne hfail
    have hsome : (mapGet (translateBatch cfg (oracles (0 + bs₁.length)) b).translations
        t).isSome := by
      rw [Nat.zero_add, hmsg, mapGet_map_pair, if_pos ht]
      rfl
    refine ⟨msg, ?_⟩
    rw [runBatches_value_at cfg oracles b bs₂ t (fun b' hb' => hdisj b' hb' t ht)
      bs₁ 0 [] hsome]
    rw [Nat.zero_add, hmsg, mapGet_map_pair, if_pos ht]
  · intro bpre b' bpost hbs₂ f hok hnd' hne' hdisj' t ht
    subst hbs₂
    have hsplit : bs₁ ++ b :: (bpre ++ b' :: bpost)
        = (bs₁ ++ b :: bpre) ++ b' :: bpost := by
      simp
    have hval := translateBatch_first_ok cfg
      (oracles ((bs₁ ++ b :: bpre).length)) b' f hmr ?_ hnd' hne' t ht
    · have hsome : (mapGet (translateBatch cfg
          (oracles (0 + (bs₁ ++ b :: bpre).length)) b').translations t).isSome := by
        rw [Nat.zero_add, hval]
        rfl
      rw [hsplit, runBatches_value_at cfg oracles b' bpost t
        (fun b'' hb'' => hdisj' b'' hb'' t ht) (bs₁ ++ b :: bpre) 0 [] hsome]
      rw [Nat.zero_add, hval]
    · have : (bs₁ ++ b :: bpre).length = bs₁.length + 1 + bpre.length := by
        simp [Nat.add_comm, Nat.add_assoc, Nat.add_left_comm]
      rw [this]
      exact hok

/-- C6 witness: batch 0 (`["Hallo"]`) fails all three default attempts, batch 1
(`["Welt"]`) succeeds immediately; the final cache holds a sentinel for
`"Hallo"` and the translation for `"Welt"`. -/
theorem runBatches_retry_exhaustion_witness :
    (∃ msg, mapGet (runBatches defaultConfig
        (fun i => if i = 0 then (fun _ => Except.error "down")
          else (fun _ => Except.ok (fun t => t ++ "!")))
        [["Hallo"], ["Welt"]] 0 []) "Hallo" = some (errorSentinel msg)) ∧
    mapGet (runBatches defaultConfig
        (fun i => if i = 0 then (fun _ => Except.error "down")
          else (fun _ => Except.ok (fun t => t ++ "!")))
        [["Hallo"], ["Welt"]] 0 []) "Welt" = some ("Welt" ++ "!") := by
  have h := runBatches_retry_exhaustion defaultConfig
    (fun i => if i = 0 then (fun _ => Except.error "down")
      else (fun _ => Except.ok (fun t => t ++ "!")))
    [] ["Hallo"] [["Welt"]] (by decide) (by decide) (by decide)
    (by decide)
    (fun k hk => ⟨"down", rfl⟩)
  exact ⟨h.1 "Hallo" (by decide),
    h.2 [] ["Welt"] [] rfl (fun t => t ++ "!") rfl (by decide) (by decide)
      (by intro b'' hb''; cases hb'') "Welt" (by decide)⟩

/-! ## Retry backoff formulas (C8)

index.js `translateBatch` (line 415) sleeps `RETRY_DELAY * Math.pow(2, retry)`
after a failed non-final batch attempt — that code path contains no call to
`Math.random()`, so the delay is the same in every run. The jittered formula
lives in `translateSingle` of the translation module (per-text retries, not
batch retries): `RETRY_DELAY * Math.pow(1.5, retryCount) + Math.random()*1000`. -/

/-- `translateSingle`'s backoff delay, `rand = Math.random() ∈ [0, 1)`. -/
def singleRetryDelay (cfg : Config) (rand : ℚ) (k : Nat) : ℚ :=
  cfg.retryDelay * (3 / 2 : ℚ) ^ k + rand * 1000

theorem cons_map_range_shift {α : Type} (f : Nat → α) (j k0 : Nat) :
    f k0 :: (List.range j).map (fun i => f (k0 + 1 + i))
      = (List.range (j + 1)).map (fun i => f (k0 + i)) := by
  rw [List.range_succ_eq_map, List.map_cons, List.map_map]
  congr 1
  refine List.map_congr_left ?_
  intro i _
  show f (k0 + 1 + i) = f (k0 + (i + 1))
  congr 1
  omega

theorem translateBatchLoop_delays (cfg : Config)
    (oracle : Nat → Except String (String → String)) (unique : List String) :
    ∀ (attemptsLeft k0 : Nat), ∃ j,
      (translateBatchLoop cfg oracle unique attemptsLeft k0).delays
        = (List.range j).map (fun i => batchRetryDelay cfg (k0 + i)) := by
  intro attemptsLeft
  induction attemptsLeft with
  | zero => intro k0; exact ⟨0, rfl⟩
  | succ a ih =>
    intro k0
    cases h : oracle k0 with
    | ok f => exact ⟨0, by simp [translateBatchLoop, h]⟩
    | error msg =>
      by_cases ha : a = 0
      · subst ha
        exact ⟨0, by simp [translateBatchLoop, h]⟩
      · obtain ⟨j', hj'⟩ := ih (k0 + 1)
        refine ⟨j' + 1, ?_⟩
        have hstep : (translateBatchLoop cfg oracle unique (a + 1) k0).delays
            = batchRetryDelay cfg k0
              :: (translateBatchLoop cfg oracle unique a (k0 + 1)).delays := by
          simp [translateBatchLoop, h, ha]
        rw [hstep, hj', cons_map_range_shift (batchRetryDelay cfg) j' k0]

/-- The delays a batch sleeps form an initial segment of the pure exponential
schedule `RETRY_DELAY * 2^i`. -/
theorem translateBatch_delays (cfg : Config)
    (oracle : Nat → Except String (String → String)) (texts : List String) :
    ∃ j, (translateBatch cfg oracle texts).delays
      = (List.range j).map (fun i => cfg.retryDelay * 2 ^ i) := by
  unfold translateBatch
  by_cases hemp : (uniqueTexts texts).isEmpty
  · exact ⟨0, by simp [hemp]⟩
  · simp only [hemp, Bool.false_eq_true, if_false]
    obtain ⟨j, hj⟩ := translateBatchLoop_delays cfg oracle (uniqueTexts texts)
      cfg.maxRetries 0
    refine ⟨j, ?_⟩
    rw [hj]
    refine List.map_congr_left ?_
    intro i _
    simp [batchRetryDelay]

/-- C8 counterexample: a batch failing all three default attempts sleeps
exactly 1000 ms and then 2000 ms — `RETRY_DELAY * 2^k` with multiplier 2, and
identically in every run: the code path calls no random source, so the claimed
uniformly drawn `randomJitter` does not exist for batch attempts (it is
identically zero). -/
theorem batchRetryDelay_counterexample :
    (translateBatch defaultConfig (fun _ => Except.error "down") ["Hallo"]).delays
      = [1000, 2000] := by decide

/-- C8 (amended). The delay before batch attempt k+1 equals
`RETRY_DELAY * 2^k` with no jitter term; the jittered formula
`RETRY_DELAY * 1.5^k + jitter`, `jitter = Math.random()*1000 ∈ [0, 1000)`
uniformly drawn, applies to the single-text translator's retries
(`translateSingle`), not to batch attempts. -/
theorem retryDelay_formulas (cfg : Config)
    (oracle : Nat → Except String (String → String)) (texts : List String)
    (k : Nat) (rand : ℚ) (h0 : 0 ≤ rand) (h1 : rand < 1) :
    (∃ j, (translateBatch cfg oracle texts).delays
      = (List.range j).map (fun i => cfg.retryDelay * 2 ^ i)) ∧
    (cfg.retryDelay * (3 / 2 : ℚ) ^ k ≤ singleRetryDelay cfg rand k ∧
     singleRetryDelay cfg rand k < cfg.retryDelay * (3 / 2 : ℚ) ^ k + 1000) := by
  refine ⟨translateBatch_delays cfg oracle texts, ?_, ?_⟩
  · unfold singleRetryDelay
    nlinarith [mul_nonneg h0 (show (0 : ℚ) ≤ 1000 by norm_num)]
  · unfold singleRetryDelay
    nlinarith [mul_lt_mul_of_pos_right h1 (show (0 : ℚ) < 1000 by norm_num)]

/-- C8 (amended) witness: concrete batch run and concrete random draw 1/2. -/
theorem retryDelay_formulas_witness :
    (∃ j, (translateBatch defaultConfig (fun _ => Except.error "down") ["Hallo"]).delays
      = (List.range j).map (fun i => defaultConfig.retryDelay * 2 ^ i)) ∧
    (defaultConfig.retryDelay * (3 / 2 : ℚ) ^ 1
        ≤ singleRetryDelay defaultConfig (1 / 2) 1 ∧
     singleRetryDelay defaultConfig (1 / 2) 1
        < defaultConfig.retryDelay * (3 / 2 : ℚ) ^ 1 + 1000) :=
  retryDelay_formulas defaultConfig (fun _ => Except.error "down") ["Hallo"] 1
    (1 / 2) (by norm_num) (by norm_num)

/-! ## Seeding (C3): processExcelFile lines 510–565

The only prior knowledge read during seeding is `loadExistingTranslations`
(the `_translated` output artifact). `loadCheckpoint` is defined but never
invoked by `processExcelFile`; the checkpoint path is computed (line 514) and
then only written to (line 588, overwriting any previous record). So checkpoint
data never flows into the Translation Cache. -/

/-- The value the builder assigns to a cell text: the artifact translation
when truthy, else the empty placeholder. -/
def seedValue (existingTranslations : List (String × String)) (t : String) : String :=
  if truthy (mapGet existingTranslations t) then
    (mapGet existingTranslations t).getD ""
  else ""

/-- The seeding procedure claim C3 describes, built from the spec's words for
comparison with the code's `buildTranslationCache`: artifact translations are
merged first, then checkpoint translations, with checkpoint values overriding
artifact values for the same key. -/
def claimSeededCache (artifact checkpointTranslations : List (String × String))
    (germanColumns : List String) (jsonData : List (List (String × String))) :
    List (String × String) :=
  jsonData.foldl (fun cache row =>
    germanColumns.foldl (fun cache col =>
      if truthy (mapGet row col) then
        let t := (mapGet row col).getD ""
        if truthy (mapGet checkpointTranslations t) then
          mapSet cache t ((mapGet checkpointTranslations t).getD "")
        else if truthy (mapGet artifact t) then
          mapSet cache t ((mapGet artifact t).getD "")
        else mapSet cache t ""
      else cache) cache) []

theorem cacheInsert_seedValue (ex cache : List (String × String))
    (cell : Option String)
    (h : ∀ t, mapGet cache t = none ∨ mapGet cache t = some (seedValue ex t)) :
    ∀ t, mapGet (cacheInsert ex cache cell) t = none ∨
      mapGet (cacheInsert ex cache cell) t = some (seedValue ex t) := by
  intro t
  unfold cacheInsert
  by_cases hc : truthy cell
  · rw [if_pos hc]
    have hv : (if truthy (mapGet ex (cell.getD "")) then
          mapSet cache (cell.getD "") ((mapGet ex (cell.getD "")).getD "")
        else mapSet cache (cell.getD "") "")
        = mapSet cache (cell.getD "") (seedValue ex (cell.getD "")) := by
      unfold seedValue
      by_cases hex : truthy (mapGet ex (cell.getD ""))
      · rw [if_pos hex, if_pos hex]
      · rw [if_neg hex, if_neg hex]
    rw [hv]
    by_cases ht : t = cell.getD ""
    · right
      rw [ht]
      exact mapGet_mapSet_self cache (cell.getD "") (seedValue ex (cell.getD ""))
    · rw [mapGet_mapSet_other _ _ _ _ ht]
      exact h t
  · rw [if_neg hc]
    exact h t

theorem rowFold_seedValue (ex : List (String × String)) (row : List (String × String)) :
    ∀ (cols : List String) (cache : List (String × String)),
      (∀ t, mapGet cache t = none ∨ mapGet cache t = some (seedValue ex t)) →
      ∀ t, mapGet (cols.foldl (fun c col => cacheInsert ex c (mapGet row col)) cache) t = none ∨
        mapGet (cols.foldl (fun c col => cacheInsert ex c (mapGet row col)) cache) t
          = some (seedValue ex t) := by
  intro cols
  induction cols with
  | nil => intro cache h; exact h
  | cons c cs ih =>
    intro cache h
    simp only [List.foldl_cons]
    exact ih _ (cacheInsert_seedValue ex cache (mapGet row c) h)

/-- C3 (amended). The run's seeded cache takes every value from the prior
output artifact alone (`seedValue`); the checkpoint record contributes
nothing (processExcelFile never calls `loadCheckpoint`). -/
theorem buildTranslationCache_artifact_only (ex : List (String × String))
    (cols : List String) (rows : List (List (String × String))) (t : String)
    (ht : t ∈ mapKeys (buildTranslationCache ex cols rows)) :
    mapGet (buildTranslationCache ex cols rows) t = some (seedValue ex t) := by
  have hall : ∀ (rs : List (List (String × String))) (cache : List (String × String)),
      (∀ a, mapGet cache a = none ∨ mapGet cache a = some (seedValue ex a)) →
      ∀ a, mapGet (rs.foldl (fun cache row =>
          cols.foldl (fun c col => cacheInsert ex c (mapGet row col)) cache) cache) a = none ∨
        mapGet (rs.foldl (fun cache row =>
          cols.foldl (fun c col => cacheInsert ex c (mapGet row col)) cache) cache) a
          = some (seedValue ex a) := by
    intro rs
    induction rs with
    | nil => intro cache h; exact h
    | cons r rst ih =>
      intro cache h
      simp only [List.foldl_cons]
      exact ih _ (rowFold_seedValue ex r cols cache h)
  have hsome : (mapGet (buildTranslationCache ex cols rows) t).isSome :=
    (mapGet_isSome_iff_mem _ t).mpr ht
  rcases hall rows [] (fun a => Or.inl rfl) t with h | h
  · exfalso
    have hnone : mapGet (buildTranslationCache ex cols rows) t = none := h
    rw [hnone] at hsome
    cases hsome
  · exact h

/-- C3 (amended) witness: a key present in the artifact receives the artifact
value. -/
theorem buildTranslationCache_artifact_only_witness :
    "Hallo" ∈ mapKeys (buildTranslationCache [("Hallo", "Hello")] ["T_DE"]
      [[("T_DE", "Hallo")]]) ∧
    mapGet (buildTranslationCache [("Hallo", "Hello")] ["T_DE"] [[("T_DE", "Hallo")]])
      "Hallo" = some (seedValue [("Hallo", "Hello")] "Hallo") := by
  refine ⟨by decide, ?_⟩
  exact buildTranslationCache_artifact_only [("Hallo", "Hello")] ["T_DE"]
    [[("T_DE", "Hallo")]] "Hallo" (by decide)

/-- C3 counterexample: with an empty artifact and a checkpoint recording
`"Hallo" → "Hello"`, the claim's merged seeding yields `"Hello"`, but the
code's seeding — which never reads the checkpoint — leaves `"Hallo"` pending
(empty value). -/
theorem seeding_ignores_checkpoint_counterexample :
    buildTranslationCache [] ["T_DE"] [[("T_DE", "Hallo")]] = [("Hallo", "")] ∧
    claimSeededCache [] [("Hallo", "Hello")] ["T_DE"] [[("T_DE", "Hallo")]]
      = [("Hallo", "Hello")] ∧
    buildTranslationCache [] ["T_DE"] [[("T_DE", "Hallo")]]
      ≠ claimSeededCache [] [("Hallo", "Hello")] ["T_DE"] [[("T_DE", "Hallo")]] := by
  refine ⟨by decide, by decide, by decide⟩

/-! ## Checkpoint cleanup ordering (C2): processExcelFile lines 740–748

The code deletes the checkpoint FIRST (line 742, errors ignored) and only then
calls `saveToExcel(jsonData, ..., true)` (line 748) for the final output. An
error thrown by the final write lands in the outer catch with the checkpoint
already gone. Errors thrown earlier in the run reach the outer catch before
the cleanup, leaving the checkpoint in place. -/

structure RunFsState where
  checkpointExists : Bool
  finalOutputWritten : Bool
  deriving Repr, DecidableEq

/-- Lines 740–748: `try { unlink(checkpoint) } catch {}` then the final
`saveToExcel`. Returns the file-system state and whether the run succeeded. -/
def finishRun (st : RunFsState) (finalWriteSucceeds : Bool) : RunFsState × Bool :=
  let stAfterUnlink : RunFsState := { st with checkpointExists := false }
  if finalWriteSucceeds then
    ({ stAfterUnlink with finalOutputWritten := true }, true)
  else
    (stAfterUnlink, false)

/-- The run tail including the possibility of an earlier error: an exception
during the translation phase reaches the outer catch before the cleanup. -/
def processTail (st : RunFsState) (translationPhaseSucceeds finalWriteSucceeds : Bool) :
    RunFsState × Bool :=
  if translationPhaseSucceeds then finishRun st finalWriteSucceeds
  else (st, false)

/-- C2 counterexample: the translation phase succeeds, the final write fails —
the run ends in an error before the final write ever succeeded, yet the
checkpoint file has already been deleted, contradicting the claimed ordering
(deletion only after a successful final write). -/
theorem checkpointCleanup_counterexample :
    processTail ⟨true, false⟩ true false = (⟨false, false⟩, false) := by decide

/-- C2 (amended). The checkpoint is deleted before the final write is
attempted: an error before the cleanup phase leaves it on disk, but once the
cleanup phase is reached it is deleted regardless of whether the final write
then succeeds or fails. -/
theorem checkpointCleanup_spec (st : RunFsState) (tp fw : Bool) :
    (tp = false → (processTail st tp fw).1 = st ∧ (processTail st tp fw).2 = false) ∧
    (tp = true → (processTail st tp fw).1.checkpointExists = false ∧
      (processTail st tp fw).1.finalOutputWritten = (st.finalOutputWritten || fw) ∧
      (processTail st tp fw).2 = fw) := by
  constructor
  · rintro rfl
    exact ⟨rfl, rfl⟩
  · rintro rfl
    cases fw
    · exact ⟨rfl, by simp [processTail, finishRun], rfl⟩
    · exact ⟨rfl, by simp [processTail, finishRun], rfl⟩

/-- C2 (amended) witness: a fully successful run deletes the checkpoint and
writes the final output. -/
theorem checkpointCleanup_spec_witness :
    (processTail ⟨true, false⟩ true true).1.checkpointExists = false ∧
    (processTail ⟨true, false⟩ true true).1.finalOutputWritten = (false || true) ∧
    (processTail ⟨true, false⟩ true true).2 = true :=
  (checkpointCleanup_spec ⟨true, false⟩ true true).2 rfl

/-! ## Checkpoint Store atomicity (C7): saveCheckpoint
(checkpoint.js lines 109–152, same structure in index.js lines 305–348)

Write the serialized record to the `.tmp` sibling, read it back and
`JSON.parse` it, `fs.rename` it over the target (atomic), then `fs.access`
the result. Any error is caught: the temp file is unlinked (best effort) and
the outer catch logs the failure — the function never throws, so the run
continues. A `fail` parameter injects a failure at each step. -/

structure CheckpointFs where
  target : Option String   -- checkpoint file contents, if the file exists
  temp : Option String     -- `.tmp` sibling contents, if it exists
  deriving Repr, DecidableEq

inductive SaveFailPoint
  | writeTempFails (leftover : String)  -- crash mid-write: temp holds garbage
  | readBackFails
  | parseFails                          -- read-back content malformed
  | renameFails
  | noFailure
  deriving Repr, DecidableEq

/-- `fs.writeFile(tempPath, serialized)`. -/
def writeTempStep (fs : CheckpointFs) (content : String) :
    SaveFailPoint → CheckpointFs × Except String Unit
  | .writeTempFails leftover => ({ fs with temp := some leftover }, .error "write failed")
  | _ => ({ fs with temp := some content }, .ok ())

/-- `fs.readFile(tempPath)`. -/
def readBackStep (fs : CheckpointFs) : SaveFailPoint → Except String String
  | .readBackFails => .error "read failed"
  | _ => .ok (fs.temp.getD "")

/-- `JSON.parse(verifyData)`. -/
def parseStep (_content : String) : SaveFailPoint → Except String Unit
  | .parseFails => .error "invalid JSON"
  | _ => .ok ()

/-- `fs.rename(tempPath, checkpointPath)`: atomic — either the whole temp file
becomes the target, or nothing changes. -/
def renameStep (fs : CheckpointFs) : SaveFailPoint → CheckpointFs × Except String Unit
  | .renameFails => (fs, .error "rename failed")
  | _ => ({ target := fs.temp, temp := none }, .ok ())

/-- The inner try block of `saveCheckpoint`. -/
def trySaveCheckpoint (fs : CheckpointFs) (serialized : String) (fail : SaveFailPoint) :
    CheckpointFs × Except String Unit :=
  match writeTempStep fs serialized fail with
  | (fs1, .error e) => (fs1, .error e)
  | (fs1, .ok _) =>
    match readBackStep fs1 fail with
    | .error e => (fs1, .error e)
    | .ok content =>
      match parseStep content fail with
      | .error e => (fs1, .error e)
      | .ok _ => renameStep fs1 fail

/-- `saveCheckpoint`: on any error the temp file is unlinked and the error is
logged; the function always returns (the run never terminates here). -/
def saveCheckpoint (fs : CheckpointFs) (serialized : String) (fail : SaveFailPoint) :
    CheckpointFs × Bool :=
  match trySaveCheckpoint fs serialized fail with
  | (fs', .ok _) => (fs', true)
  | (fs', .error _) => ({ fs' with temp := none }, false)

/-- C7. Checkpoint save atomicity: a failure at any step — during the temp
write, the read-back, the parse validation, or even the rename itself —
leaves the previously valid checkpoint contents untouched and reports the
failure without throwing; a fully successful save replaces the target with
the new record; and in all cases the temp file is gone afterwards. -/
theorem saveCheckpoint_atomic (fs : CheckpointFs) (s : String) (fail : SaveFailPoint) :
    (fail ≠ SaveFailPoint.noFailure →
      (saveCheckpoint fs s fail).1.target = fs.target ∧
      (saveCheckpoint fs s fail).2 = false) ∧
    (fail = SaveFailPoint.noFailure →
      (saveCheckpoint fs s fail).1 = ⟨some s, none⟩ ∧
      (saveCheckpoint fs s fail).2 = true) ∧
    (saveCheckpoint fs s fail).1.temp = none := by
  rcases fail with leftover | _ | _ | _ | _ <;>
    simp [saveCheckpoint, trySaveCheckpoint, writeTempStep, readBackStep,
      parseStep, renameStep]

/-- C7 witness: a read-back failure on a checkpoint holding `"old"` leaves
`"old"` in place and reports failure. -/
theorem saveCheckpoint_atomic_witness :
    (saveCheckpoint ⟨some "old", none⟩ "new" SaveFailPoint.readBackFails).1.target
      = some "old" ∧
    (saveCheckpoint ⟨some "old", none⟩ "new" SaveFailPoint.readBackFails).2 = false :=
  (saveCheckpoint_atomic ⟨some "old", none⟩ "new" SaveFailPoint.readBackFails).1
    (by decide)

/-! ## Progress Monitor (progress.js lines 6–119)

Timestamps and counts are JS numbers; all values involved are integers, and
the float divisions (`/10`, `/ (1000*60)`) are modelled exactly over `ℚ`.
`checkForStall` mutates `this.lastStallCheck`; both methods are modelled as
state transformers returning the updated monitor. The string formatting of
the returned status (toFixed, "Xh Ym") is presentation-layer; the numeric
values behind it are modelled. -/

structure ProgressMonitor where
  totalTexts : Int
  currentProgress : Int
  lastProgressUpdate : Int          -- ms timestamp
  lastProgressCount : Int
  stallCheckInterval : Int          -- 5 * 60 * 1000 ms
  lastStallCheck : Int
  progressHistory : List (Int × Int)  -- (timestamp, cumulative count)
  deriving Repr, DecidableEq

/-- `new ProgressMonitor(totalTexts, startingProgress)` constructed at time
`now` (`Date.now()`). -/
def ProgressMonitor.init (totalTexts startingProgress now : Int) : ProgressMonitor :=
  { totalTexts := totalTexts, currentProgress := startingProgress,
    lastProgressUpdate := now, lastProgressCount := startingProgress,
    stallCheckInterval := 5 * 60 * 1000, lastStallCheck := now,
    progressHistory := [] }

/-- `checkForStall(currentCount, now)` (lines 84–109): at most once per
`stallCheckInterval`; stalled when either no sample of the last 5 minutes
moved past `currentCount`, or the 10-minute rate `(current − oldest)/10`
dropped below 0.1 items/minute; needs ≥ 2 samples in the 10-minute window. -/
def ProgressMonitor.checkForStall (m : ProgressMonitor) (currentCount now : Int) :
    Bool × ProgressMonitor :=
  if now - m.lastStallCheck < m.stallCheckInterval then (false, m)
  else
    -- `fiveMinutesAgo = now - 5*60*1000`, `tenMinutesAgo = now - 10*60*1000`,
    -- `recentHistory` = samples of the last 10 minutes (the match scrutinee),
    -- `noRecentProgress` = the left disjunct, `recentProgressRate` the right.
    match m.progressHistory.filter (fun p => decide (now - 10 * 60 * 1000 < p.1)) with
    | [] => (false, { m with lastStallCheck := now })
    | [_] => (false, { m with lastStallCheck := now })
    | first :: _ :: _ =>
      ((m.progressHistory.filter (fun p => decide (now - 5 * 60 * 1000 < p.1))).all
          (fun p => decide (p.2 = currentCount))
        || decide ((((currentCount : ℚ) - (first.2 : ℚ)) / 10 : ℚ) < 1 / 10),
       { m with lastStallCheck := now })

/-- The numeric content of the status object `updateProgress` returns. -/
structure ProgressStatus where
  current : Int
  total : Int
  percentage : ℚ                     -- rendered with toFixed(1)
  remaining : Int
  isStalled : Bool
  progressRate : ℚ                   -- items/minute, rendered with toFixed(1)
  estimatedTimeRemaining : Option ℚ  -- minutes; none = "Unknown" (rate ≤ 0)
  timeSinceLastProgress : Int        -- whole seconds (Math.floor)
  deriving Repr

/-- `updateProgress(newProgress)` at time `now` (lines 22–76): push the new
sample, retain only the last 30 minutes, compute the rate from the oldest
retained sample, run the (at most once per 5 minutes) stall check, then
update the monitor's counters. -/
def ProgressMonitor.updateProgress (m : ProgressMonitor) (newProgress now : Int) :
    ProgressStatus × ProgressMonitor :=
  let timeSinceLastUpdate := now - m.lastProgressUpdate
  let thirtyMinutesAgo := now - 30 * 60 * 1000
  let history := (m.progressHistory ++ [(now, newProgress)]).filter
    (fun p => decide (thirtyMinutesAgo < p.1))
  let progressRate : ℚ :=
    match history with
    | [] => 0
    | [_] => 0
    | oldest :: _ :: _ =>
      let timeSpan : ℚ := ((now : ℚ) - (oldest.1 : ℚ)) / (1000 * 60)
      let itemsProcessed : ℚ := (newProgress : ℚ) - (oldest.2 : ℚ)
      if 0 < timeSpan then itemsProcessed / timeSpan else 0
  let mh := { m with progressHistory := history }
  let res := mh.checkForStall newProgress now
  let m' := { res.2 with
    lastProgressCount := newProgress,
    lastProgressUpdate := now,
    currentProgress := newProgress }
  ({ current := newProgress, total := m.totalTexts,
     percentage := (newProgress : ℚ) / (m.totalTexts : ℚ) * 100,
     remaining := m.totalTexts - newProgress,
     isStalled := res.1,
     progressRate := progressRate,
     estimatedTimeRemaining :=
       if 0 < progressRate then
         some (((m.totalTexts - newProgress : Int) : ℚ) / progressRate)
       else none,
     timeSinceLastProgress := Int.fdiv timeSinceLastUpdate 1000 }, m')

/-- C9 counterexample: a monitor created at t = 0 observing a constant count 5
at t = 100 000 ms, t = 300 000 ms and t = 360 000 ms. The observation at
300 000 performs a stall check and reports `isStalled = true`, but the very
next observation at 360 000 — with the count still unchanged — reports
`isStalled = false`, because it falls inside the 5-minute check interval:
the flag does not remain true until progress resumes. -/
theorem checkForStall_not_persistent_counterexample :
    ((((ProgressMonitor.init 10 5 0).updateProgress 5 100000).2.updateProgress
        5 300000).1.isStalled = true) ∧
    (((((ProgressMonitor.init 10 5 0).updateProgress 5 100000).2.updateProgress
        5 300000).2.updateProgress 5 360000).1.isStalled = false) := by
  constructor
  · decide
  · decide

/-- C9 (amended). Stall evaluation happens at most once per 5-minute check
interval: an observation within the interval of the last check returns
`isStalled = false` without evaluating anything (so the flag does NOT remain
true on subsequent observations — it resets until the next due check, even if
the count never increased). When a check is due and at least two samples lie
in the 10-minute window, a completed count unchanged across the 5-minute
sample window makes `isStalled` true and resets the check clock to `now`. -/
theorem checkForStall_spec (m : ProgressMonitor) (c now : Int) :
    (now - m.lastStallCheck < m.stallCheckInterval →
      m.checkForStall c now = (false, m)) ∧
    (¬(now - m.lastStallCheck < m.stallCheckInterval) →
      2 ≤ (m.progressHistory.filter
        (fun p => decide (now - 10 * 60 * 1000 < p.1))).length →
      (∀ p ∈ m.progressHistory, now - 5 * 60 * 1000 < p.1 → p.2 = c) →
      (m.checkForStall c now).1 = true ∧
      (m.checkForStall c now).2 = { m with lastStallCheck := now }) := by
  constructor
  · intro h
    unfold ProgressMonitor.checkForStall
    rw [if_pos h]
  · intro hdue hlen hconst
    have hall : (m.progressHistory.filter
        (fun p => decide (now - 5 * 60 * 1000 < p.1))).all
          (fun p => decide (p.2 = c)) = true := by
      rw [List.all_eq_true]
      intro p hp
      rw [List.mem_filter] at hp
      have := hconst p hp.1 (by simpa using hp.2)
      simpa using this
    unfold ProgressMonitor.checkForStall
    rw [if_neg hdue]
    rcases hrh : m.progressHistory.filter
        (fun p => decide (now - 10 * 60 * 1000 < p.1)) with _ | ⟨first, rest⟩
    · rw [hrh] at hlen; simp at hlen
    · rcases rest with _ | ⟨second, rest'⟩
      · rw [hrh] at hlen; simp at hlen
      · rw [hrh]
        dsimp only
        rw [hall, Bool.true_or]
        exact ⟨rfl, rfl⟩

/-- C9 (amended) witness: a due check over two constant samples reports a
stall and advances the check clock. -/
theorem checkForStall_spec_witness :
    (({ totalTexts := 10, currentProgress := 5, lastProgressUpdate := 100000,
        lastProgressCount := 5, stallCheckInterval := 300000, lastStallCheck := 0,
        progressHistory := [(100000, 5), (300000, 5)] } : ProgressMonitor).checkForStall
        5 300000).1 = true ∧
    (({ totalTexts := 10, currentProgress := 5, lastProgressUpdate := 100000,
        lastProgressCount := 5, stallCheckInterval := 300000, lastStallCheck := 0,
        progressHistory := [(100000, 5), (300000, 5)] } : ProgressMonitor).checkForStall
        5 300000).2
      = { totalTexts := 10, currentProgress := 5, lastProgressUpdate := 100000,
          lastProgressCount := 5, stallCheckInterval := 300000,
          lastStallCheck := 300000,
          progressHistory := [(100000, 5), (300000, 5)] } :=
  (checkForStall_spec
    { totalTexts := 10, currentProgress := 5, lastProgressUpdate := 100000,
      lastProgressCount := 5, stallCheckInterval := 300000, lastStallCheck := 0,
      progressHistory := [(100000, 5), (300000, 5)] } 5 300000).2
    (by decide) (by decide) (by decide)
